import Mathlib

/-!
Verification development for the `fire-dl` URL-fetching tool
(sources: `src/main.rs`, `src/args.rs`, `src/download.rs`, `src/scan.rs`,
`src/utils.rs`).

The Rust sources are shallowly embedded: pure logic becomes Lean
functions, the stateful job-creation loops become explicit state
passing, `HashMap`/`HashSet` become association/membership lists, the
fallible paths (`unwrap`, `?`) become `Option`/`Except`, and the
bounded-concurrency executor (`buffer_unordered`) becomes a small-step
scheduler over an explicit state.  External collaborators (the `url`
crate, the `soup` HTML parser, `regex`, HTTP) are embedded at their
interface: URLs as structured values, parsed HTML documents as element
lists, regexes as abstract string predicates, HTTP responses as
header-bytes plus body.
-/

/-! ## URL model

Embeds the interface of the `url` crate used by the sources.  A URL is
either a hierarchical ("special") URL with scheme, host and path
segments, or a cannot-be-a-base URL (e.g. `mailto:`), for which the
crate's `path_segments()` returns `None`. -/

inductive Url where
  | web (scheme host : String) (segs : List String)
  | nonBase (scheme : String) (path : String)
deriving DecidableEq

/-- `Url::path_segments()`: `some` of the `/`-separated segments for a
hierarchical URL, `none` for a cannot-be-a-base URL. -/
def Url.path_segments : Url → Option (List String)
  | .web _ _ segs => some segs
  | .nonBase _ _ => none

/-- Canonical string form of a URL (the crate's `to_string`). -/
def Url.toString : Url → String
  | .web scheme host segs => scheme ++ "://" ++ host ++ "/" ++ String.intercalate "/" segs
  | .nonBase scheme path => scheme ++ ":" ++ path

/-! ## `src/utils.rs` -/

/-- Loop of `dedup_urls` (`src/utils.rs:5-17`): the closure captures the
`HashSet` `dedup`; a URL passes the filter iff it is not yet in the set,
and is inserted when it passes. -/
def dedupGo (dedup : List Url) : List Url → List Url
  | [] => []
  | url :: rest =>
    if url ∈ dedup then dedupGo dedup rest
    else url :: dedupGo (url :: dedup) rest

/-- `dedup_urls` (`src/utils.rs:5-17`): filter the input through a
freshly created seen-set. -/
def dedup_urls (input : List Url) : List Url :=
  dedupGo [] input

/-- Spec-side definition (for the refinement claim about the
deduplication stage): keep each distinct URL exactly once, at its first
occurrence, deleting all later occurrences. -/
def specFirstSeenDedup : List Url → List Url
  | [] => []
  | u :: rest => u :: specFirstSeenDedup (rest.filter (fun v => v ≠ u))
termination_by l => l.length
decreasing_by
  simp only [List.length_cons]
  exact Nat.lt_succ_of_le (List.length_filter_le _ _)

theorem specFirstSeenDedup_nil : specFirstSeenDedup [] = [] := by
  simp [specFirstSeenDedup]

theorem specFirstSeenDedup_cons (u : Url) (rest : List Url) :
    specFirstSeenDedup (u :: rest) =
      u :: specFirstSeenDedup (rest.filter (fun v => v ≠ u)) := by
  simp [specFirstSeenDedup]

/-- The seen-set filter computes first-occurrence deduplication of the
input with the already-seen URLs deleted. -/
theorem dedupGo_eq_spec (l : List Url) :
    ∀ seen : List Url,
      dedupGo seen l = specFirstSeenDedup (l.filter (fun v => decide (v ∉ seen))) := by
  induction l with
  | nil => intro seen; simp [dedupGo, specFirstSeenDedup_nil]
  | cons u rest ih =>
    intro seen
    by_cases hu : u ∈ seen
    · simp only [dedupGo, if_pos hu]
      rw [ih seen]
      congr 1
      simp [List.filter_cons, hu]
    · simp only [dedupGo, if_neg hu]
      rw [ih (u :: seen)]
      have hcons : (u :: rest).filter (fun v => decide (v ∉ seen)) =
          u :: rest.filter (fun v => decide (v ∉ seen)) := by
        simp [List.filter_cons, hu]
      rw [hcons, specFirstSeenDedup_cons]
      congr 1
      rw [List.filter_filter]
      congr 1
      apply List.filter_congr
      intro a _
      by_cases hne : a = u
      · subst hne; simp
      · by_cases hs : a ∈ seen <;> simp [hne, hs]

theorem dedup_urls_eq_spec (l : List Url) : dedup_urls l = specFirstSeenDedup l := by
  unfold dedup_urls
  rw [dedupGo_eq_spec l []]
  congr 1
  apply List.filter_eq_self.2
  intro a _
  simp

theorem mem_specFirstSeenDedup (l : List Url) :
    ∀ u : Url, u ∈ specFirstSeenDedup l ↔ u ∈ l := by
  induction l using specFirstSeenDedup.induct with
  | case1 => simp [specFirstSeenDedup_nil]
  | case2 v rest ih =>
    intro u
    rw [specFirstSeenDedup_cons]
    by_cases hu : u = v
    · subst hu; simp
    · simp only [List.mem_cons, ih u, List.mem_filter]
      constructor
      · rintro (h | ⟨h, -⟩)
        · exact absurd h hu
        · exact Or.inr h
      · rintro (h | h)
        · exact absurd h hu
        · exact Or.inr ⟨h, by simpa using hu⟩

theorem nodup_specFirstSeenDedup (l : List Url) : (specFirstSeenDedup l).Nodup := by
  induction l using specFirstSeenDedup.induct with
  | case1 => simp [specFirstSeenDedup_nil]
  | case2 v rest ih =>
    rw [specFirstSeenDedup_cons]
    refine List.nodup_cons.2 ⟨?_, ih⟩
    intro hmem
    have := (mem_specFirstSeenDedup _ v).1 hmem
    simp at this

theorem dedupGo_sublist (l : List Url) : ∀ seen : List Url, (dedupGo seen l).Sublist l := by
  induction l with
  | nil => intro seen; simp [dedupGo]
  | cons u rest ih =>
    intro seen
    by_cases hu : u ∈ seen
    · simp only [dedupGo, if_pos hu]
      exact (ih seen).cons u
    · simp only [dedupGo, if_neg hu]
      exact (ih (u :: seen)).cons₂ u

/-! ## Decimal numerals

The file-name collision rule of `src/download.rs` builds names with
`format!("{file_name}.{suffix}")`, i.e. `Nat.repr` in the embedding.
We relate core's fuel-driven `Nat.toDigitsCore` to a fuel-free digits
function, and derive that decimal numerals consist of digit characters
only and that `Nat.repr` is injective. -/

/-- Fuel-free version of the decimal digits of `n` (most significant
first), matching `Nat.toDigits 10 n`. -/
def digitsRec (n : Nat) : List Char :=
  if _h : n < 10 then [Nat.digitChar n]
  else digitsRec (n / 10) ++ [Nat.digitChar (n % 10)]
termination_by n
decreasing_by
  exact Nat.div_lt_self (by omega) (by omega)

theorem digitsRec_lt {n : Nat} (h : n < 10) : digitsRec n = [Nat.digitChar n] := by
  rw [digitsRec, dif_pos h]

theorem digitsRec_ge {n : Nat} (h : ¬ n < 10) :
    digitsRec n = digitsRec (n / 10) ++ [Nat.digitChar (n % 10)] := by
  rw [digitsRec, dif_neg h]

theorem toDigitsCore_eq_digitsRec :
    ∀ fuel n ds, n < fuel → Nat.toDigitsCore 10 fuel n ds = digitsRec n ++ ds := by
  intro fuel
  induction fuel with
  | zero => intro n ds h; omega
  | succ f ih =>
    intro n ds h
    by_cases h10 : n < 10
    · have hdiv : n / 10 = 0 := Nat.div_eq_of_lt h10
      have hmod : n % 10 = n := Nat.mod_eq_of_lt h10
      simp [Nat.toDigitsCore, hdiv, hmod, digitsRec_lt h10]
    · have hdiv : n / 10 ≠ 0 := by
        intro hz
        have := Nat.div_eq_of_lt (show n < 10 by omega)
        omega
      have hlt : n / 10 < f := by
        have h1 : n / 10 < n := Nat.div_lt_self (by omega) (by omega)
        omega
      simp only [Nat.toDigitsCore, hdiv, if_false]
      rw [ih (n / 10) _ hlt, digitsRec_ge h10, List.append_assoc]
      rfl

theorem repr_data (n : Nat) : (Nat.repr n).data = digitsRec n := by
  show (Nat.toDigits 10 n).asString.data = digitsRec n
  unfold Nat.toDigits
  rw [toDigitsCore_eq_digitsRec (n + 1) n [] (Nat.lt_succ_self n)]
  simp [List.asString]

theorem digitChar_isDigit {m : Nat} (h : m < 10) : (Nat.digitChar m).isDigit = true := by
  revert m h
  decide

theorem digitsRec_digits (n : Nat) : ∀ c ∈ digitsRec n, c.isDigit = true := by
  induction n using digitsRec.induct with
  | case1 n h =>
    intro c hc
    rw [digitsRec_lt h] at hc
    simp only [List.mem_singleton] at hc
    subst hc
    exact digitChar_isDigit h
  | case2 n h ih =>
    intro c hc
    rw [digitsRec_ge h] at hc
    rcases List.mem_append.1 hc with h1 | h1
    · exact ih c h1
    · simp only [List.mem_singleton] at h1
      subst h1
      exact digitChar_isDigit (Nat.mod_lt _ (by omega))

theorem repr_no_dot (n : Nat) : ∀ c ∈ (Nat.repr n).data, c ≠ '.' := by
  intro c hc hdot
  rw [repr_data] at hc
  have := digitsRec_digits n c hc
  subst hdot
  simp [Char.isDigit] at this

/-- Fold a digit-character list back to the number it denotes. -/
def undigits (l : List Char) : Nat :=
  l.foldl (fun a c => a * 10 + (c.toNat - 48)) 0

theorem digitChar_toNat {m : Nat} (h : m < 10) : (Nat.digitChar m).toNat - 48 = m := by
  revert m h
  decide

theorem digitsRec_foldl (n : Nat) :
    ∀ a : Nat, (digitsRec n).foldl (fun a c => a * 10 + (c.toNat - 48)) a =
      a * 10 ^ (digitsRec n).length + n := by
  induction n using digitsRec.induct with
  | case1 n h =>
    intro a
    rw [digitsRec_lt h]
    simp [List.foldl, digitChar_toNat h]
  | case2 n h ih =>
    intro a
    rw [digitsRec_ge h]
    rw [List.foldl_append]
    rw [ih a]
    simp only [List.foldl, List.length_append, List.length_singleton]
    rw [digitChar_toNat (Nat.mod_lt _ (by omega))]
    rw [pow_succ]
    have : 10 * (n / 10) + n % 10 = n := Nat.div_add_mod n 10
    ring_nf
    omega

theorem undigits_digitsRec (n : Nat) : undigits (digitsRec n) = n := by
  unfold undigits
  rw [digitsRec_foldl n 0]
  simp

theorem repr_injective : Function.Injective Nat.repr := by
  intro m n h
  have hd : digitsRec m = digitsRec n := by
    rw [← repr_data, ← repr_data, h]
  have := undigits_digitsRec m
  rw [hd, undigits_digitsRec] at this
  omega

/-- Splitting a character list at a marker character that occurs in
neither tail is unambiguous. -/
theorem dotSplit_unique :
    ∀ sx sy x y : List Char, (∀ c ∈ sx, c ≠ '.') → (∀ c ∈ sy, c ≠ '.') →
      sx ++ '.' :: x = sy ++ '.' :: y → sx = sy ∧ x = y := by
  intro sx
  induction sx with
  | nil =>
    intro sy x y _ hsy h
    cases sy with
    | nil => simpa using h
    | cons c t =>
      simp only [List.nil_append, List.cons_append, List.cons.injEq] at h
      exact absurd h.1.symm (hsy c (List.mem_cons_self c t))
  | cons c t ih =>
    intro sy x y hsx hsy h
    cases sy with
    | nil =>
      simp only [List.cons_append, List.nil_append, List.cons.injEq] at h
      exact absurd h.1 (hsx c (List.mem_cons_self c t))
    | cons d u =>
      simp only [List.cons_append, List.cons.injEq] at h
      obtain ⟨hcd, htail⟩ := h
      obtain ⟨h1, h2⟩ := ih u x y (fun a ha => hsx a (List.mem_cons_of_mem c ha))
        (fun a ha => hsy a (List.mem_cons_of_mem d ha)) htail
      exact ⟨by rw [hcd, h1], h2⟩

/-- The file name built by `format!("{file_name}.{suffix}")` in
`src/download.rs:72`. -/
def suffixedName (b : String) (k : Nat) : String :=
  b ++ "." ++ Nat.repr k

theorem suffixedName_data (b : String) (k : Nat) :
    (suffixedName b k).data = b.data ++ '.' :: (Nat.repr k).data := by
  show (b ++ "." ++ Nat.repr k).data = _
  rw [String.data_append, String.data_append]
  have hdot : ".".data = ['.'] := rfl
  rw [hdot, List.append_assoc]
  rfl

/-- Two suffixed names are equal only when base and counter agree: the
counter part is all digits, so the final `.` of the name is unambiguous,
and decimal numerals are injective. -/
theorem suffixedName_inj {b b' : String} {k m : Nat}
    (h : suffixedName b k = suffixedName b' m) : b = b' ∧ k = m := by
  have hdata : (suffixedName b k).data = (suffixedName b' m).data := by rw [h]
  rw [suffixedName_data, suffixedName_data] at hdata
  have hrev : (Nat.repr k).data.reverse ++ '.' :: b.data.reverse =
      (Nat.repr m).data.reverse ++ '.' :: b'.data.reverse := by
    have := congrArg List.reverse hdata
    simpa [List.reverse_append] using this
  obtain ⟨h1, h2⟩ := dotSplit_unique _ _ _ _
    (fun c hc => repr_no_dot k c (List.mem_reverse.1 hc))
    (fun c hc => repr_no_dot m c (List.mem_reverse.1 hc)) hrev
  refine ⟨String.ext (List.reverse_injective h2), ?_⟩
  exact repr_injective (String.ext (List.reverse_injective h1))

/-- A plain base name is never equal to the suffixed name built from the
same base: the suffixed name is strictly longer. -/
theorem base_ne_suffixedName (b : String) (k : Nat) :
    b ≠ suffixedName b k := by
  intro h
  have hdata := congrArg String.data h
  rw [suffixedName_data] at hdata
  have := congrArg List.length hdata
  simp at this

/-! ## `src/download.rs` — job creation

`download` (`src/download.rs:39-121`) collects the input URLs and runs a
single-threaded loop that deduplicates them, derives a destination file
name (suffixing on collision), applies the existing-file policy, and
creates one `Job` per surviving URL.  The filesystem is embedded as the
list `disk` of paths that exist at job-creation time; the `unwrap` on a
missing file name (`src/download.rs:69`) is embedded as `none` (a panic
aborting the whole run). -/

structure DJob where
  id : Nat
  url : Url
  file_name : String
  path : String
  unlink_existing : Bool
deriving DecidableEq

/-- `file_name_from_url` (`src/download.rs:123-125`):
`url.path_segments().and_then(|iter| iter.last())`. -/
def file_name_from_url (url : Url) : Option String :=
  (Url.path_segments url).bind List.getLast?

/-- `output_files.get_mut(&file_name)` on the embedded `HashMap`. -/
def lookupCounter (m : List (String × Nat)) (k : String) : Option Nat :=
  (m.find? (fun p => p.1 = k)).map (·.2)

/-- `*suffix += 1` through the embedded `HashMap`. -/
def bumpCounter (m : List (String × Nat)) (k : String) : List (String × Nat) :=
  m.map (fun p => if p.1 = k then (p.1, p.2 + 1) else p)

/-- Lines 71-77 of `src/download.rs`: on a counter hit the name becomes
`format!("{file_name}.{suffix}")` and the counter is bumped; on a miss
the plain base name is used and the counter for it starts at `2`. -/
def assignName (m : List (String × Nat)) (base : String) : String × List (String × Nat) :=
  match lookupCounter m base with
  | some suffix => (suffixedName base suffix, bumpCounter m base)
  | none => (base, (base, 2) :: m)

structure CreateState where
  id : Nat
  output_files : List (String × Nat)
  urls_seen : List Url
  jobs : List DJob

/-- The job-creation loop of `download` (`src/download.rs:59-103`),
with the loop-carried mutable state made explicit.  `none` models the
panic of the `unwrap` at line 69. -/
def createJobs (output : String) (disk : List String) (redownload : Bool) :
    List Url → CreateState → Option (List DJob)
  | [], s => some s.jobs
  | url :: rest, s =>
    if url ∈ s.urls_seen then createJobs output disk redownload rest s
    else
      match file_name_from_url url with
      | none => none
      | some base =>
        let fm := assignName s.output_files base
        let path := output ++ "/" ++ fm.1
        if path ∈ disk then
          if redownload then
            createJobs output disk redownload rest
              { id := s.id + 1, output_files := fm.2, urls_seen := url :: s.urls_seen,
                jobs := s.jobs ++ [⟨s.id, url, fm.1, path, true⟩] }
          else
            createJobs output disk redownload rest
              { id := s.id, output_files := fm.2, urls_seen := url :: s.urls_seen,
                jobs := s.jobs }
        else
          createJobs output disk redownload rest
            { id := s.id + 1, output_files := fm.2, urls_seen := url :: s.urls_seen,
              jobs := s.jobs ++ [⟨s.id, url, fm.1, path, false⟩] }

/-- Job creation of download mode: the loop started on fresh state
(`id = 0`, empty collision map, empty seen-set). -/
def download (output : String) (disk : List String) (redownload : Bool)
    (urls : List Url) : Option (List DJob) :=
  createJobs output disk redownload urls ⟨0, [], [], []⟩

/-! ## `src/scan.rs` — job creation, filters -/

structure SJob where
  url : Url
deriving DecidableEq

/-- Scan-mode job creation (`src/scan.rs:58-65`): one `Job` is sent per
collected input URL, with no deduplication stage. -/
def scanJobs (urls : List Url) : List SJob :=
  urls.map (fun url => ⟨url⟩)

/-- `Filters` (`src/scan.rs:93-97`): a regex is embedded as its match
predicate on strings. -/
structure Filters where
  filter_url : List (String → Bool)

/-- `Filters::is_match` (`src/scan.rs:100-103`). -/
def Filters.is_match (f : Filters) (url : Url) : Bool :=
  f.filter_url.any (fun regex => regex url.toString)

/-! ## Relative-reference resolution (`Url::join` of the `url` crate)

Embedded from the crate's RFC 3986 resolution at the granularity the
sources exercise: scheme-absolute references, absolute-path references,
and relative-path references merged against the base path (dot-segment
normalisation is not modelled).  `none` models a `ParseError` from
`join`, e.g. an empty host or a relative reference against a
cannot-be-a-base URL. -/

/-- Split a path remainder on `/` into segments. -/
def splitOnSlash : List Char → List String
  | [] => [""]
  | c :: rest =>
    if c = '/' then "" :: splitOnSlash rest
    else
      match splitOnSlash rest with
      | [] => [String.mk [c]]
      | s :: ss => String.mk (c :: s.data) :: ss

/-- Segments of a serialised path that starts with `/` (or is empty,
which the crate normalises to `/`). -/
def segsOfPath (path : List Char) : List String :=
  match path with
  | '/' :: rest => splitOnSlash rest
  | _ => [""]

/-- Strip a leading `scheme:` (nonempty, alphabetic) from a reference,
returning scheme and remainder. -/
def schemeSplitGo (acc : List Char) : List Char → Option (String × List Char)
  | [] => none
  | c :: rest =>
    if c = ':' then
      if acc = [] then none else some (String.mk acc.reverse, rest)
    else if c.isAlpha then schemeSplitGo (c :: acc) rest
    else none

/-- Resolve the reference `href` against `base`, as `base.join(&href)`. -/
def Url.join (base : Url) (href : String) : Option Url :=
  match schemeSplitGo [] href.data with
  | some (scheme, rest) =>
    match rest with
    | '/' :: '/' :: after =>
      let host := after.takeWhile (fun c => c ≠ '/')
      let path := after.dropWhile (fun c => c ≠ '/')
      if host = [] then none
      else some (.web scheme (String.mk host) (segsOfPath path))
    | _ => some (.nonBase scheme (String.mk rest))
  | none =>
    match base with
    | .nonBase _ _ => none
    | .web scheme host segs =>
      match href.data with
      | [] => some base
      | '/' :: rest => some (.web scheme host (splitOnSlash rest))
      | cs => some (.web scheme host (segs.dropLast ++ splitOnSlash cs))

/-! ## HTML documents and `scan_html`

The `soup` parser is an external collaborator; documents are embedded
post-parse, as the list of elements the `soup.tag("a").find_all()`
query ranges over, each with its attribute list. -/

structure Element where
  tag : String
  attrs : List (String × String)

/-- `NodeExt::get` on an element: the value of the named attribute. -/
def Element.get (e : Element) (name : String) : Option String :=
  (e.attrs.find? (fun p => p.1 = name)).map (·.2)

/-- `scan_html` (`src/scan.rs:148-161`): iterate the anchor elements in
document order, resolve each present `href` against the page URL, and
push the URLs that resolve. -/
def scan_html (doc : List Element) (base_url : Url) : List Url :=
  (doc.filter (fun a => a.tag = "a")).foldl
    (fun urls a =>
      match a.get "href" with
      | some href =>
        match base_url.join href with
        | some url => urls ++ [url]
        | none => urls
      | none => urls)
    []

/-! ## Scan job body (`Job::run`, `src/scan.rs:118-146`)

The HTTP response is embedded as its content-type header (raw bytes,
`none` when the header is absent) and its already-parsed body.  The
result is `Except`: `error` models the `?`-propagated failures inside
`run`; the `ok` payload is the list of URLs the job sends to the output
channel (the discovered URLs surviving the filter). -/

structure SResponse where
  content_type : Option (List Nat)
  body : List Element

/-- `HeaderValue::to_str`: succeeds iff every byte is visible ASCII. -/
def headerToStr (bytes : List Nat) : Option String :=
  if bytes.all (fun b => 32 ≤ b && b ≤ 126) then
    some (String.mk (bytes.map Char.ofNat))
  else none

/-- `Job::run` for scan mode, after a successful GET: content-type
dispatch, HTML link extraction, filtering, send to the sink. -/
def SJob.run (filters : Filters) (job : SJob) (response : SResponse) :
    Except Unit (List Url) :=
  match response.content_type with
  | some ctBytes =>
    match headerToStr ctBytes with
    | none => .error ()
    | some ct =>
      if ct = "text/html" then
        .ok ((scan_html response.body job.url).filter (fun url => filters.is_match url))
      else .ok []
  | none => .ok []

/-! ## Bounded executor (`buffer_unordered`)

Both modes run their job stream through
`.buffer_unordered(args.parallel)` (`src/download.rs:109-118`,
`src/scan.rs:72-84`).  The combinator is embedded as a small-step
scheduler: jobs are abstracted to their remaining amount of work; on
each poll the combinator first admits queued jobs until `limit` job
bodies are in flight (or the queue is empty), then the runtime advances
one in-flight job body (the nondeterministic `choice`); a body whose
work reaches zero leaves the in-flight set and frees its slot. -/

structure ExecState where
  pending : List Nat
  active : List Nat
deriving DecidableEq

/-- Admit jobs from the head of the queue while fewer than `limit` are
in flight. -/
def fillGo (limit : Nat) : List Nat → List Nat → List Nat × List Nat
  | [], active => ([], active)
  | j :: rest, active =>
    if active.length < limit then fillGo limit rest (active ++ [j])
    else (j :: rest, active)

def fill (limit : Nat) (s : ExecState) : ExecState :=
  let p := fillGo limit s.pending s.active
  ⟨p.1, p.2⟩

/-- The runtime advances the in-flight job body picked by `choice`;
finished bodies are removed. -/
def workOn (active : List Nat) (choice : Nat) : List Nat :=
  match active.get? choice with
  | none => active
  | some w => if w ≤ 1 then active.eraseIdx choice else active.set choice (w - 1)

/-- Observable schedule of the executor: the sequence of in-flight
snapshots taken each time the combinator has finished admitting jobs
(the points where job bodies run simultaneously). -/
def execTrace (limit : Nat) : List Nat → ExecState → List ExecState
  | [], s => [fill limit s]
  | c :: cs, s =>
    let f := fill limit s
    f :: execTrace limit cs ⟨f.pending, workOn f.active c⟩

/-! ## Download job body (`Job::download`, `src/download.rs:205-232`)

The filesystem side effects are embedded as an event trace.  The
response body is a list of chunk reads, each either a chunk or a
transport error (`response.chunk().await?`); an error aborts the job
after the events already performed.  The returned `Bool` is success. -/

inductive FsEvent where
  | createFile (dir name : String)
  | write (chunk : List Nat)
  | flush
  | removeFile (dir name : String)
  | rename (dir name dir2 name2 : String)
deriving DecidableEq

/-- The chunk loop (`src/download.rs:219-222`): write each chunk until
the stream ends or a read fails. -/
def writeChunks : List (Except Unit (List Nat)) → List FsEvent × Bool
  | [] => ([], true)
  | .ok c :: rest =>
    let p := writeChunks rest
    (FsEvent.write c :: p.1, p.2)
  | .error _ :: _ => ([], false)

/-- `Job::download`: create the temp file `.{file_name}.part` next to
the destination, stream the body into it, flush, optionally unlink the
pre-existing destination, then rename the temp file onto the
destination. -/
def Job.download (dir file_name : String) (unlink_existing : Bool)
    (chunks : List (Except Unit (List Nat))) : List FsEvent × Bool :=
  let temp_name := "." ++ file_name ++ ".part"
  let w := writeChunks chunks
  let evs := FsEvent.createFile dir temp_name :: w.1
  if w.2 then
    let evs := evs ++ [FsEvent.flush]
    let evs := if unlink_existing then evs ++ [FsEvent.removeFile dir file_name] else evs
    (evs ++ [FsEvent.rename dir temp_name dir file_name], true)
  else (evs, false)

/-! ## Claim C2 — the deduplication stage -/

/-- Claim C2: for every finite input sequence of URLs, the
deduplication stage (`dedup_urls`, whose filter closure is the
`observe` step over the seen-set) lets each distinct URL through
exactly once, at its first occurrence, preserving first-seen order:
its output is exactly the first-occurrence subsequence of the input —
a duplicate-free sublist of the input containing every input URL, with
each distinct URL counted once. -/
theorem C2_dedup_first_seen (l : List Url) :
    dedup_urls l = specFirstSeenDedup l ∧
    (dedup_urls l).Nodup ∧
    (dedup_urls l).Sublist l ∧
    (∀ u : Url, (dedup_urls l).count u = if u ∈ l then 1 else 0) := by
  refine ⟨dedup_urls_eq_spec l, ?_, dedupGo_sublist l [], ?_⟩
  · rw [dedup_urls_eq_spec l]
    exact nodup_specFirstSeenDedup l
  · intro u
    rw [dedup_urls_eq_spec l]
    by_cases hu : u ∈ l
    · rw [if_pos hu]
      have hmem : u ∈ specFirstSeenDedup l := (mem_specFirstSeenDedup l u).2 hu
      have h1 : (specFirstSeenDedup l).count u ≤ 1 :=
        List.nodup_iff_count_le_one.1 (nodup_specFirstSeenDedup l) u
      have h2 : 0 < (specFirstSeenDedup l).count u := List.count_pos_iff.2 hmem
      omega
    · rw [if_neg hu]
      refine List.count_eq_zero.2 ?_
      intro hmem
      exact hu ((mem_specFirstSeenDedup l u).1 hmem)

/-! ## Claim C7 — the scan filter -/

/-- Claim C7, counterexample: with zero configured patterns,
`Filters::is_match` returns `false` (not `true`) for a URL, so the
empty filter set lets nothing through. -/
theorem C7_counterexample :
    Filters.is_match ⟨[]⟩ (Url.web "https" "example.test" [""]) = false := rfl

/-- Claim C7 (amended): a URL passes the scan filter iff at least one
configured pattern matches its canonical string form (OR semantics);
with zero configured patterns no URL passes. -/
theorem C7_filter_or_semantics (f : Filters) (u : Url) :
    (f.is_match u = true ↔ ∃ r ∈ f.filter_url, r u.toString = true) ∧
    (f.filter_url = [] → f.is_match u = false) := by
  constructor
  · simp [Filters.is_match, List.any_eq_true]
  · intro h
    simp [Filters.is_match, h]

/-- Witness for C7: the amended theorem evaluated on an empty filter
set and a concrete URL. -/
theorem C7_witness :
    Filters.is_match ⟨[]⟩ (Url.web "https" "w.test" ["x"]) = false :=
  (C7_filter_or_semantics ⟨[]⟩ (Url.web "https" "w.test" ["x"])).2 rfl

/-! ## Claim C9 — `scan_html` link extraction -/

theorem scan_html_foldl (base : Url) :
    ∀ (l : List Element) (acc : List Url),
      l.foldl
        (fun urls a =>
          match a.get "href" with
          | some href =>
            match base.join href with
            | some url => urls ++ [url]
            | none => urls
          | none => urls)
        acc =
      acc ++ l.filterMap (fun a => (a.get "href").bind (fun href => base.join href)) := by
  intro l
  induction l with
  | nil => intro acc; simp
  | cons a rest ih =>
    intro acc
    simp only [List.foldl_cons, List.filterMap_cons]
    cases hh : a.get "href" with
    | none => simp only [Option.none_bind]; exact ih acc
    | some href =>
      cases hj : base.join href with
      | none => simp only [Option.some_bind, hj]; exact ih acc
      | some url =>
        simp only [Option.some_bind, hj]
        rw [ih (acc ++ [url])]
        simp

/-- Claim C9: `scan_html` extracts the `href` of every anchor element
(in document order), resolves it against the page's own URL, and drops
without error every `href` that fails to resolve; on a page at
`https://site.test/p/` with anchors `/a`, `b`, `https://x.test/c`
(and a malformed `https://`, which is dropped), the discovered URLs are
`https://site.test/a`, `https://site.test/p/b`, `https://x.test/c`. -/
theorem C9_scan_html_extraction :
    (∀ (doc : List Element) (base : Url),
      scan_html doc base =
        (doc.filter (fun a => a.tag = "a")).filterMap
          (fun a => (a.get "href").bind (fun href => base.join href))) ∧
    scan_html
      [⟨"a", [("href", "/a")]⟩,
       ⟨"div", [("href", "/ignored")]⟩,
       ⟨"a", [("href", "b")]⟩,
       ⟨"a", [("id", "nohref")]⟩,
       ⟨"a", [("href", "https://x.test/c")]⟩,
       ⟨"a", [("href", "https://")]⟩]
      (Url.web "https" "site.test" ["p", ""]) =
      [Url.web "https" "site.test" ["a"],
       Url.web "https" "site.test" ["p", "b"],
       Url.web "https" "x.test" ["c"]] := by
  constructor
  · intro doc base
    unfold scan_html
    rw [scan_html_foldl base]
    simp
  · rfl

/-! ## Claim C8 — content-type dispatch in the scan job body -/

/-- Claim C8, counterexample: a present `content-type` header whose
value is not a visible-ASCII string (here the single byte 255) makes
`HeaderValue::to_str` fail, and the `?` at `src/scan.rs:126` turns the
job into an error — not into a success with zero discovered URLs as
the claim states for every non-`text/html` content type. -/
theorem C8_counterexample :
    SJob.run ⟨[]⟩ ⟨Url.web "https" "h.test" [""]⟩
        ⟨some [255], [⟨"a", [("href", "/a")]⟩]⟩ = Except.error () ∧
    (Except.error () : Except Unit (List Url)) ≠ Except.ok [] := by
  exact ⟨rfl, by simp⟩

/-- Claim C8 (amended): link extraction runs iff the declared content
type is exactly the string `text/html`; for every other content type
that is a valid visible-ASCII header value, and for a missing
content-type header, the job succeeds with zero discovered URLs
(regardless of body content); a content-type header value that is not
a valid string makes the job fail with an error. -/
theorem C8_content_type_dispatch (f : Filters) (j : SJob) (r : SResponse) :
    (r.content_type = none → SJob.run f j r = Except.ok []) ∧
    (∀ bytes ct, r.content_type = some bytes → headerToStr bytes = some ct →
      ct ≠ "text/html" → SJob.run f j r = Except.ok []) ∧
    (∀ bytes, r.content_type = some bytes → headerToStr bytes = some "text/html" →
      SJob.run f j r =
        Except.ok ((scan_html r.body j.url).filter (fun url => f.is_match url))) ∧
    (∀ bytes, r.content_type = some bytes → headerToStr bytes = none →
      SJob.run f j r = Except.error ()) := by
  refine ⟨?_, ?_, ?_, ?_⟩
  · intro h; simp [SJob.run, h]
  · intro bytes ct hct hstr hne
    simp [SJob.run, hct, hstr, hne]
  · intro bytes hct hstr
    simp [SJob.run, hct, hstr]
  · intro bytes hct hstr
    simp [SJob.run, hct, hstr]

/-- Witness for C8: the amended theorem evaluated on a response with
content type `application/json` and a body full of anchors — zero
discovered URLs, no error. -/
theorem C8_witness :
    SJob.run ⟨[]⟩ ⟨Url.web "https" "h.test" [""]⟩
        ⟨some ("application/json".data.map Char.toNat),
         [⟨"a", [("href", "/a")]⟩]⟩ = Except.ok [] := by
  exact (C8_content_type_dispatch _ _ _).2.1 ("application/json".data.map Char.toNat)
    "application/json" rfl (by decide) (by decide)

/-! ## Claim C6 — ordering of the download job body's filesystem effects -/

theorem writeChunks_ok (chunks : List (Except Unit (List Nat)))
    (h : (writeChunks chunks).2 = true) :
    (∀ e ∈ (writeChunks chunks).1, ∃ c, e = FsEvent.write c) ∧
    (writeChunks chunks).1.length = chunks.length := by
  induction chunks with
  | nil => simp [writeChunks]
  | cons chunk rest ih =>
    cases chunk with
    | error e => simp [writeChunks] at h
    | ok c =>
      simp only [writeChunks] at h ⊢
      obtain ⟨h1, h2⟩ := ih h
      refine ⟨?_, by simpa using h2⟩
      intro e he
      rcases List.mem_cons.1 he with he | he
      · exact ⟨c, he⟩
      · exact h1 e he

/-- Claim C6: a download job that completes successfully performs its
filesystem effects in this strict order: create the temp file
`.{file_name}.part` in the same directory as the destination, write all
body chunks to it (one write per chunk), flush, then — only if the
unlink-existing flag is set — remove the pre-existing destination, and
finally rename the temp file onto the destination; the rename is the
last event, after the full body is written and flushed. -/
theorem C6_download_event_order (dir file_name : String) (unlink : Bool)
    (chunks : List (Except Unit (List Nat)))
    (h : (Job.download dir file_name unlink chunks).2 = true) :
    ∃ ws : List FsEvent,
      (∀ e ∈ ws, ∃ c, e = FsEvent.write c) ∧
      ws.length = chunks.length ∧
      (Job.download dir file_name unlink chunks).1 =
        FsEvent.createFile dir ("." ++ file_name ++ ".part") :: ws ++
          [FsEvent.flush] ++
          (if unlink then [FsEvent.removeFile dir file_name] else []) ++
          [FsEvent.rename dir ("." ++ file_name ++ ".part") dir file_name] := by
  by_cases hw : (writeChunks chunks).2 = true
  · obtain ⟨h1, h2⟩ := writeChunks_ok chunks hw
    refine ⟨(writeChunks chunks).1, h1, h2, ?_⟩
    simp only [Job.download, hw, if_true]
    cases unlink <;> simp
  · exfalso
    simp only [Job.download] at h
    rw [if_neg hw] at h
    simp at h

/-- Witness for C6: a successful two-chunk download with the
unlink-existing flag set. -/
theorem C6_witness :
    (Job.download "out" "f.bin" true [Except.ok [1, 2], Except.ok [3]]).2 = true ∧
    ∃ ws : List FsEvent,
      (∀ e ∈ ws, ∃ c, e = FsEvent.write c) ∧
      ws.length = 2 ∧
      (Job.download "out" "f.bin" true [Except.ok [1, 2], Except.ok [3]]).1 =
        FsEvent.createFile "out" ("." ++ "f.bin" ++ ".part") :: ws ++
          [FsEvent.flush] ++ [FsEvent.removeFile "out" "f.bin"] ++
          [FsEvent.rename "out" ("." ++ "f.bin" ++ ".part") "out" "f.bin"] := by
  refine ⟨rfl, ?_⟩
  obtain ⟨ws, hws, hlen, htr⟩ :=
    C6_download_event_order "out" "f.bin" true [Except.ok [1, 2], Except.ok [3]] rfl
  exact ⟨ws, hws, hlen, by simpa using htr⟩

/-! ## Claim C1 — the concurrency bound of the bounded executor -/

theorem fillGo_length_le (limit : Nat) :
    ∀ (pending active : List Nat), active.length ≤ limit →
      (fillGo limit pending active).2.length ≤ limit := by
  intro pending
  induction pending with
  | nil => intro active h; simpa [fillGo] using h
  | cons j rest ih =>
    intro active h
    simp only [fillGo]
    by_cases hlt : active.length < limit
    · rw [if_pos hlt]
      exact ih (active ++ [j]) (by simp; omega)
    · rw [if_neg hlt]
      exact h

theorem fillGo_fills (limit : Nat) :
    ∀ (pending active : List Nat),
      (fillGo limit pending active).2.length < limit →
      (fillGo limit pending active).1 = [] := by
  intro pending
  induction pending with
  | nil => intro active _; simp [fillGo]
  | cons j rest ih =>
    intro active h
    simp only [fillGo] at h ⊢
    by_cases hlt : active.length < limit
    · rw [if_pos hlt] at h ⊢
      exact ih (active ++ [j]) h
    · rw [if_neg hlt] at h
      exact absurd h hlt

theorem workOn_length_le (active : List Nat) (choice : Nat) :
    (workOn active choice).length ≤ active.length := by
  unfold workOn
  cases hg : active.get? choice with
  | none => simp
  | some w =>
    have hlt : choice < active.length := List.get?_eq_some.1 hg |>.1
    show (if w ≤ 1 then active.eraseIdx choice
      else active.set choice (w - 1)).length ≤ active.length
    by_cases hw : w ≤ 1
    · rw [if_pos hw]
      have := List.length_eraseIdx_add_one hlt
      omega
    · rw [if_neg hw]
      simp

theorem execTrace_invariant (limit : Nat) :
    ∀ (choices : List Nat) (s0 : ExecState), s0.active.length ≤ limit →
      ∀ s ∈ execTrace limit choices s0,
        s.active.length ≤ limit ∧ (s.active.length < limit → s.pending = []) := by
  intro choices
  induction choices with
  | nil =>
    intro s0 h0 s hs
    simp only [execTrace, List.mem_singleton] at hs
    subst hs
    exact ⟨fillGo_length_le limit s0.pending s0.active h0,
      fun h => fillGo_fills limit s0.pending s0.active h⟩
  | cons c cs ih =>
    intro s0 h0 s hs
    simp only [execTrace, List.mem_cons] at hs
    rcases hs with hs | hs
    · subst hs
      exact ⟨fillGo_length_le limit s0.pending s0.active h0,
        fun h => fillGo_fills limit s0.pending s0.active h⟩
    · refine ih _ ?_ s hs
      calc (workOn (fill limit s0).active c).length
          ≤ (fill limit s0).active.length := workOn_length_le _ _
        _ ≤ limit := fillGo_length_le limit s0.pending s0.active h0

/-- Claim C1: for every concurrency limit `K` (the `parallel`
argument), every job queue and every completion schedule, each snapshot
of the executor has at most `K` job bodies simultaneously in flight,
and whenever a slot is free (fewer than `K` in flight) the queue has
been drained — i.e. a finished job is immediately replaced by the next
queued job while any remain.  (The same `buffer_unordered(parallel)`
combinator drives both download and scan mode.) -/
theorem C1_executor_bound (limit : Nat) (choices jobs : List Nat) (s : ExecState)
    (hs : s ∈ execTrace limit choices ⟨jobs, []⟩) :
    s.active.length ≤ limit ∧ (s.active.length < limit → s.pending = []) :=
  execTrace_invariant limit choices ⟨jobs, []⟩ (by simp) s hs

/-- Witness for C1: a run with limit 2 over four queued jobs; the
snapshot after the first completion has both slots filled again. -/
theorem C1_witness :
    (⟨[4], [2, 3]⟩ : ExecState) ∈ execTrace 2 [0] ⟨[1, 2, 3, 4], []⟩ ∧
    ((⟨[4], [2, 3]⟩ : ExecState).active.length ≤ 2 ∧
      ((⟨[4], [2, 3]⟩ : ExecState).active.length < 2 →
        (⟨[4], [2, 3]⟩ : ExecState).pending = [])) := by
  refine ⟨by decide, C1_executor_bound 2 [0] [1, 2, 3, 4] ⟨[4], [2, 3]⟩ (by decide)⟩

/-! ## Claim C10 — missing file names panic the run -/

theorem createJobs_panics (output : String) (disk : List String) (rd : Bool) :
    ∀ (urls : List Url) (s : CreateState),
      (∃ u ∈ urls, file_name_from_url u = none ∧ u ∉ s.urls_seen) →
      createJobs output disk rd urls s = none := by
  intro urls
  induction urls with
  | nil => rintro s ⟨u, hu, -⟩; simp at hu
  | cons v rest ih =>
    rintro s ⟨u, hu, hfn, hnseen⟩
    by_cases hv : v ∈ s.urls_seen
    · have hne : u ≠ v := fun h => hnseen (h ▸ hv)
      have hu' : u ∈ rest := by
        rcases List.mem_cons.1 hu with h | h
        · exact absurd h hne
        · exact h
      simp only [createJobs, if_pos hv]
      exact ih s ⟨u, hu', hfn, hnseen⟩
    · simp only [createJobs, if_neg hv]
      split
      · rfl
      next base hfnv =>
        have hne : u ≠ v := by
          intro h
          rw [h, hfnv] at hfn
          cases hfn
        have hu' : u ∈ rest := by
          rcases List.mem_cons.1 hu with h | h
          · exact absurd h hne
          · exact h
        have hnseen' : u ∉ v :: s.urls_seen := by
          intro h
          rcases List.mem_cons.1 h with h | h
          · exact hne h
          · exact hnseen h
        by_cases hdisk : output ++ "/" ++ (assignName s.output_files base).1 ∈ disk
        · rw [if_pos hdisk]
          by_cases hrd : rd = true
          · rw [if_pos hrd]
            exact ih _ ⟨u, hu', hfn, hnseen'⟩
          · rw [if_neg hrd]
            exact ih _ ⟨u, hu', hfn, hnseen'⟩
        · rw [if_neg hdisk]
          exact ih _ ⟨u, hu', hfn, hnseen'⟩

/-- Claim C10: in download mode the destination file name is the last
path segment of the URL, so a URL whose path ends with a slash derives
the empty-string file name; a URL with no path segments at all (a
cannot-be-a-base URL such as `mailto:`) has no derivable file name, and
the job-creation stage of a run whose input contains such a URL
panics on the `unwrap` of `None` (`none` result) instead of rejecting
that job with a per-job error. -/
theorem C10_missing_file_name :
    (∀ (scheme host : String) (segs : List String), segs.getLast? = some "" →
      file_name_from_url (Url.web scheme host segs) = some "") ∧
    (∀ scheme path, file_name_from_url (Url.nonBase scheme path) = none) ∧
    (∀ (output : String) (disk : List String) (rd : Bool) (urls : List Url),
      (∃ u ∈ urls, file_name_from_url u = none) →
      download output disk rd urls = none) := by
  refine ⟨?_, fun _ _ => rfl, ?_⟩
  · intro scheme host segs hlast
    simp [file_name_from_url, Url.path_segments, hlast]
  · rintro output disk rd urls ⟨u, hu, hfn⟩
    exact createJobs_panics output disk rd urls ⟨0, [], [], []⟩
      ⟨u, hu, hfn, by simp⟩

/-- Witness for C10: a trailing-slash URL derives the empty file name,
and a run containing a `mailto:` URL aborts with the modelled panic. -/
theorem C10_witness :
    file_name_from_url (Url.web "https" "h.test" ["d", ""]) = some "" ∧
    download "out" [] false [Url.nonBase "mailto" "user@h.test"] = none :=
  ⟨C10_missing_file_name.1 "https" "h.test" ["d", ""] rfl,
   C10_missing_file_name.2.2 "out" [] false [Url.nonBase "mailto" "user@h.test"]
     ⟨Url.nonBase "mailto" "user@h.test", by simp, rfl⟩⟩

/-! ## Claim C3 — the dedup invariant on created jobs -/

/-- Claim C3, counterexample: scan mode has no deduplication stage
between the collected input URLs and job creation; an input list with a
duplicate URL creates two jobs for that URL. -/
theorem C3_counterexample :
    ((scanJobs [Url.web "https" "h.test" ["x"], Url.web "https" "h.test" ["x"]]).filter
      (fun j => j.url = Url.web "https" "h.test" ["x"])).length = 2 := by
  decide

theorem createJobs_urls_nodup (output : String) (disk : List String) (rd : Bool) :
    ∀ (urls : List Url) (s : CreateState) (jobs : List DJob),
      (∀ j ∈ s.jobs, j.url ∈ s.urls_seen) →
      (s.jobs.map (fun j => j.url)).Nodup →
      createJobs output disk rd urls s = some jobs →
      (jobs.map (fun j => j.url)).Nodup := by
  intro urls
  induction urls with
  | nil =>
    intro s jobs _ hnd h
    simp only [createJobs, Option.some.injEq] at h
    subst h
    exact hnd
  | cons v rest ih =>
    intro s jobs hseen hnd h
    by_cases hv : v ∈ s.urls_seen
    · rw [createJobs, if_pos hv] at h
      exact ih s jobs hseen hnd h
    · simp only [createJobs, if_neg hv] at h
      split at h
      · cases h
      next base hfnv =>
        have hseen' : ∀ j ∈ s.jobs, j.url ∈ v :: s.urls_seen :=
          fun j hj => List.mem_cons_of_mem v (hseen j hj)
        have happend : ∀ (fn p : String) (ul : Bool),
            ((s.jobs ++ [(⟨s.id, v, fn, p, ul⟩ : DJob)]).map (fun j => j.url)).Nodup ∧
            (∀ j ∈ s.jobs ++ [(⟨s.id, v, fn, p, ul⟩ : DJob)], j.url ∈ v :: s.urls_seen) := by
          intro fn p ul
          constructor
          · rw [List.map_append]
            simp only [List.map_singleton]
            rw [List.nodup_append]
            refine ⟨hnd, List.nodup_singleton v, ?_⟩
            intro a ha hb
            simp only [List.mem_singleton] at hb
            subst hb
            obtain ⟨j, hj, hju⟩ := List.mem_map.1 ha
            exact hv (hju ▸ hseen j hj)
          · intro j hj
            rcases List.mem_append.1 hj with hj | hj
            · exact List.mem_cons_of_mem v (hseen j hj)
            · simp only [List.mem_singleton] at hj
              subst hj
              exact List.mem_cons_self v _
        by_cases hdisk : output ++ "/" ++ (assignName s.output_files base).1 ∈ disk
        · rw [if_pos hdisk] at h
          by_cases hrd : rd = true
          · rw [if_pos hrd] at h
            exact ih _ jobs (happend _ _ true).2 (happend _ _ true).1 h
          · rw [if_neg hrd] at h
            exact ih (CreateState.mk s.id (assignName s.output_files base).2
              (v :: s.urls_seen) s.jobs) jobs hseen' hnd h
        · rw [if_neg hdisk] at h
          exact ih _ jobs (happend _ _ false).2 (happend _ _ false).1 h

/-- Claim C3 (amended): in download mode the deduplicator runs between
the collected input URLs and job creation, so no two download jobs
share a URL; in scan mode there is no deduplication stage — every
occurrence of a URL in the collected input yields its own job, so a
duplicated input URL yields multiple jobs. -/
theorem C3_dedup_before_jobs :
    (∀ (output : String) (disk : List String) (rd : Bool) (urls : List Url)
        (jobs : List DJob),
      download output disk rd urls = some jobs →
      (jobs.map (fun j => j.url)).Nodup) ∧
    (∀ (urls : List Url) (u : Url),
      ((scanJobs urls).filter (fun j => j.url = u)).length = urls.count u) := by
  constructor
  · intro output disk rd urls jobs h
    exact createJobs_urls_nodup output disk rd urls ⟨0, [], [], []⟩ jobs
      (by simp) (by simp) h
  · intro urls u
    induction urls with
    | nil => simp [scanJobs]
    | cons v rest ih =>
      simp only [scanJobs] at ih
      by_cases hvu : v = u
      · subst hvu
        simp [scanJobs, List.filter_cons, List.count_cons, ih]
      · simp [scanJobs, List.filter_cons, List.count_cons, hvu, ih,
          Ne.symm hvu]

/-! ## Collision-counter lemmas (shared by C4 and C5) -/

theorem lookupCounter_insert_self (m : List (String × Nat)) (b : String) (n : Nat) :
    lookupCounter ((b, n) :: m) b = some n := by
  simp [lookupCounter, List.find?]

theorem lookupCounter_insert_other (m : List (String × Nat)) (b x : String) (n : Nat)
    (h : x ≠ b) : lookupCounter ((b, n) :: m) x = lookupCounter m x := by
  simp [lookupCounter, List.find?, Ne.symm h]

theorem lookupCounter_bump_self (m : List (String × Nat)) (b : String) (c : Nat)
    (h : lookupCounter m b = some c) :
    lookupCounter (bumpCounter m b) b = some (c + 1) := by
  induction m with
  | nil => simp [lookupCounter] at h
  | cons p rest ih =>
    obtain ⟨k, v⟩ := p
    by_cases hk : k = b
    · subst hk
      simp [lookupCounter, List.find?] at h
      simp [bumpCounter, lookupCounter, List.find?, h]
    · simp only [lookupCounter, List.find?] at h
      rw [show (decide ((k, v).1 = b)) = false by simp [hk]] at h
      have := ih h
      simp [bumpCounter, lookupCounter, List.find?, hk] at this ⊢
      exact this

theorem lookupCounter_bump_other (m : List (String × Nat)) (b x : String)
    (h : x ≠ b) : lookupCounter (bumpCounter m b) x = lookupCounter m x := by
  induction m with
  | nil => simp [lookupCounter, bumpCounter]
  | cons p rest ih =>
    obtain ⟨k, v⟩ := p
    by_cases hk : k = b
    · subst hk
      simp [bumpCounter, lookupCounter, List.find?, Ne.symm h] at ih ⊢
      exact ih
    · by_cases hx : k = x
      · subst hx
        simp [bumpCounter, lookupCounter, List.find?, hk]
      · simp [bumpCounter, lookupCounter, List.find?, hk, hx] at ih ⊢
        exact ih

theorem lookupCounter_none_of_bump_none (m : List (String × Nat)) (b x : String)
    (h : lookupCounter (bumpCounter m b) x = none) : lookupCounter m x = none := by
  by_cases hxb : x = b
  · subst hxb
    cases hc : lookupCounter m x with
    | none => rfl
    | some c => rw [lookupCounter_bump_self m x c hc] at h; cases h
  · rw [lookupCounter_bump_other m b x hxb] at h
    exact h

/-- The name sequence claimed for the jobs mapping to basename `x`:
`x` for the first, `x.N` for the `N`-th (`N ≥ 2`). -/
def specNameSeq (x : String) (n : Nat) : List String :=
  (List.range n).map (fun i => if i = 0 then x else suffixedName x (i + 1))

theorem specNameSeq_zero (x : String) : specNameSeq x 0 = [] := rfl

theorem specNameSeq_succ (x : String) (n : Nat) :
    specNameSeq x (n + 1) =
      specNameSeq x n ++ [if n = 0 then x else suffixedName x (n + 1)] := by
  simp [specNameSeq, List.range_succ]

/-- Number of jobs whose URL maps to basename `x`. -/
def basesCount (x : String) (jobs : List DJob) : Nat :=
  (jobs.filter (fun j => file_name_from_url j.url = some x)).length

/-- Destination file names of the jobs whose URL maps to basename `x`,
in creation order. -/
def namesFor (x : String) (jobs : List DJob) : List String :=
  (jobs.filter (fun j => file_name_from_url j.url = some x)).map (fun j => j.file_name)

theorem basesCount_append_same (x : String) (jobs : List DJob) (j : DJob)
    (hj : file_name_from_url j.url = some x) :
    basesCount x (jobs ++ [j]) = basesCount x jobs + 1 := by
  simp [basesCount, List.filter_append, List.filter_cons, hj]

theorem basesCount_append_other (x : String) (jobs : List DJob) (j : DJob)
    (hj : file_name_from_url j.url ≠ some x) :
    basesCount x (jobs ++ [j]) = basesCount x jobs := by
  simp [basesCount, List.filter_append, List.filter_cons, hj]

theorem namesFor_append_same (x : String) (jobs : List DJob) (j : DJob)
    (hj : file_name_from_url j.url = some x) :
    namesFor x (jobs ++ [j]) = namesFor x jobs ++ [j.file_name] := by
  simp [namesFor, List.filter_append, List.filter_cons, hj]

theorem namesFor_append_other (x : String) (jobs : List DJob) (j : DJob)
    (hj : file_name_from_url j.url ≠ some x) :
    namesFor x (jobs ++ [j]) = namesFor x jobs := by
  simp [namesFor, List.filter_append, List.filter_cons, hj]

/-- Loop invariant of the job-creation loop for runs in which the
existing-file policy never skips a URL (empty disk, or the redownload
flag set): the collision counter of `x` is one more than the number of
jobs with basename `x` (absent while there is none), and the names
assigned to the jobs with basename `x` are `x, x.2, x.3, …` in creation
order. -/
theorem createJobs_names (output : String) (disk : List String) (rd : Bool)
    (hns : (∀ p : String, p ∉ disk) ∨ rd = true) :
    ∀ (urls : List Url) (s : CreateState) (jobs : List DJob),
      (∀ x, lookupCounter s.output_files x =
        if basesCount x s.jobs = 0 then none else some (basesCount x s.jobs + 1)) →
      (∀ x, namesFor x s.jobs = specNameSeq x (basesCount x s.jobs)) →
      createJobs output disk rd urls s = some jobs →
      ∀ x, namesFor x jobs = specNameSeq x (basesCount x jobs) := by
  intro urls
  induction urls with
  | nil =>
    intro s jobs _ hnm h
    simp only [createJobs, Option.some.injEq] at h
    subst h
    exact hnm
  | cons v rest ih =>
    intro s jobs hlkInv hnm h
    by_cases hv : v ∈ s.urls_seen
    · rw [createJobs, if_pos hv] at h
      exact ih s jobs hlkInv hnm h
    · simp only [createJobs, if_neg hv] at h
      split at h
      · cases h
      next b hfnb =>
        cases hlk : lookupCounter s.output_files b with
        | none =>
          have hcnt : basesCount b s.jobs = 0 := by
            by_cases hc : basesCount b s.jobs = 0
            · exact hc
            · have := hlkInv b
              rw [hlk, if_neg hc] at this
              cases this
          simp only [assignName, hlk] at h
          have hstep : ∀ (ul : Bool),
              (∀ x, lookupCounter ((b, 2) :: s.output_files) x =
                if basesCount x (s.jobs ++
                    [(⟨s.id, v, b, output ++ "/" ++ b, ul⟩ : DJob)]) = 0 then none
                else some (basesCount x (s.jobs ++
                    [(⟨s.id, v, b, output ++ "/" ++ b, ul⟩ : DJob)]) + 1)) ∧
              (∀ x, namesFor x (s.jobs ++
                    [(⟨s.id, v, b, output ++ "/" ++ b, ul⟩ : DJob)]) =
                specNameSeq x (basesCount x (s.jobs ++
                    [(⟨s.id, v, b, output ++ "/" ++ b, ul⟩ : DJob)]))) := by
            intro ul
            constructor
            · intro x
              by_cases hx : x = b
              · subst hx
                rw [lookupCounter_insert_self,
                  basesCount_append_same x s.jobs _ hfnb, hcnt]
                simp
              · rw [lookupCounter_insert_other _ _ _ _ hx,
                  basesCount_append_other x s.jobs _ (by simp [hfnb, Ne.symm hx])]
                exact hlkInv x
            · intro x
              by_cases hx : x = b
              · subst hx
                rw [namesFor_append_same x s.jobs _ hfnb,
                  basesCount_append_same x s.jobs _ hfnb, hcnt,
                  specNameSeq_succ, hnm x, hcnt]
                simp
              · rw [namesFor_append_other x s.jobs _ (by simp [hfnb, Ne.symm hx]),
                  basesCount_append_other x s.jobs _ (by simp [hfnb, Ne.symm hx])]
                exact hnm x
          by_cases hdisk : output ++ "/" ++ b ∈ disk
          · rcases hns with hempty | hrd
            · exact absurd hdisk (hempty _)
            · rw [if_pos hdisk, if_pos hrd] at h
              exact ih _ jobs (hstep true).1 (hstep true).2 h
          · rw [if_neg hdisk] at h
            exact ih _ jobs (hstep false).1 (hstep false).2 h
        | some c =>
          have hcnt : basesCount b s.jobs ≠ 0 ∧ c = basesCount b s.jobs + 1 := by
            by_cases hc : basesCount b s.jobs = 0
            · have := hlkInv b
              rw [hlk, if_pos hc] at this
              cases this
            · have := hlkInv b
              rw [hlk, if_neg hc] at this
              exact ⟨hc, by injection this⟩
          simp only [assignName, hlk] at h
          have hstep : ∀ (ul : Bool),
              (∀ x, lookupCounter (bumpCounter s.output_files b) x =
                if basesCount x (s.jobs ++
                    [(⟨s.id, v, suffixedName b c,
                      output ++ "/" ++ suffixedName b c, ul⟩ : DJob)]) = 0 then none
                else some (basesCount x (s.jobs ++
                    [(⟨s.id, v, suffixedName b c,
                      output ++ "/" ++ suffixedName b c, ul⟩ : DJob)]) + 1)) ∧
              (∀ x, namesFor x (s.jobs ++
                    [(⟨s.id, v, suffixedName b c,
                      output ++ "/" ++ suffixedName b c, ul⟩ : DJob)]) =
                specNameSeq x (basesCount x (s.jobs ++
                    [(⟨s.id, v, suffixedName b c,
                      output ++ "/" ++ suffixedName b c, ul⟩ : DJob)]))) := by
            intro ul
            constructor
            · intro x
              by_cases hx : x = b
              · subst hx
                rw [lookupCounter_bump_self _ _ _ hlk,
                  basesCount_append_same x s.jobs _ hfnb]
                rw [if_neg (by omega)]
                rw [hcnt.2]
              · rw [lookupCounter_bump_other _ _ _ hx,
                  basesCount_append_other x s.jobs _ (by simp [hfnb, Ne.symm hx])]
                exact hlkInv x
            · intro x
              by_cases hx : x = b
              · subst hx
                rw [namesFor_append_same x s.jobs _ hfnb,
                  basesCount_append_same x s.jobs _ hfnb,
                  specNameSeq_succ, hnm x]
                rw [if_neg hcnt.1, hcnt.2]
              · rw [namesFor_append_other x s.jobs _ (by simp [hfnb, Ne.symm hx]),
                  basesCount_append_other x s.jobs _ (by simp [hfnb, Ne.symm hx])]
                exact hnm x
          by_cases hdisk : output ++ "/" ++ suffixedName b c ∈ disk
          · rcases hns with hempty | hrd
            · exact absurd hdisk (hempty _)
            · rw [if_pos hdisk, if_pos hrd] at h
              exact ih _ jobs (hstep true).1 (hstep true).2 h
          · rw [if_neg hdisk] at h
            exact ih _ jobs (hstep false).1 (hstep false).2 h

/-! ## Claim C4 — collision suffixes -/

/-- Claim C4, counterexample: with `out/a` already on disk and the
redownload flag unset, the first URL with basename `a` is skipped after
bumping the per-basename counter, so the first (and only) job whose URL
maps to basename `a` gets destination file name `a.2`, not `a` as the
claim requires. -/
theorem C4_counterexample :
    download "out" ["out/a"] false
        [Url.web "https" "h" ["a"], Url.web "https" "h2" ["a"]] =
      some [⟨0, Url.web "https" "h2" ["a"], "a.2", "out/a.2", false⟩] ∧
    namesFor "a" [⟨0, Url.web "https" "h2" ["a"], "a.2", "out/a.2", false⟩] = ["a.2"] ∧
    "a.2" ≠ "a" := by
  refine ⟨by decide, rfl, by decide⟩

/-- Claim C4 (amended): in a single download run in which the
existing-file policy skips no URL (no destination already on disk, or
the redownload flag set), for every basename `x` the sequence of
destination file names of the jobs whose URL maps to `x` is
`x, x.2, x.3, …` — the first job gets `x` and the `N`-th (`N ≥ 2`) gets
`x.N`, driven by the per-basename counter reset at run start.  (When a
URL is skipped because its destination exists, the counter is bumped
anyway, so the `N`-th *job* can get a later suffix.) -/
theorem C4_collision_suffix_names (output : String) (disk : List String) (rd : Bool)
    (urls : List Url) (jobs : List DJob)
    (h : download output disk rd urls = some jobs)
    (hns : (∀ p : String, p ∉ disk) ∨ rd = true) (x : String) :
    namesFor x jobs = specNameSeq x (basesCount x jobs) :=
  createJobs_names output disk rd hns urls ⟨0, [], [], []⟩ jobs
    (fun x => by simp [lookupCounter, basesCount]) (fun _ => rfl) h x

/-- Witness for C4: three URLs all deriving basename `index.html`
resolve to `index.html`, `index.html.2`, `index.html.3`. -/
theorem C4_witness :
    namesFor "index.html"
        [⟨0, Url.web "https" "a.test" ["index.html"], "index.html",
          "out/index.html", false⟩,
         ⟨1, Url.web "https" "b.test" ["index.html"], "index.html.2",
          "out/index.html.2", false⟩,
         ⟨2, Url.web "https" "c.test" ["index.html"], "index.html.3",
          "out/index.html.3", false⟩] =
      specNameSeq "index.html" (basesCount "index.html"
        [⟨0, Url.web "https" "a.test" ["index.html"], "index.html",
          "out/index.html", false⟩,
         ⟨1, Url.web "https" "b.test" ["index.html"], "index.html.2",
          "out/index.html.2", false⟩,
         ⟨2, Url.web "https" "c.test" ["index.html"], "index.html.3",
          "out/index.html.3", false⟩]) ∧
    specNameSeq "index.html" 3 = ["index.html", "index.html.2", "index.html.3"] :=
  ⟨C4_collision_suffix_names "out" [] false
      [Url.web "https" "a.test" ["index.html"],
       Url.web "https" "b.test" ["index.html"],
       Url.web "https" "c.test" ["index.html"]] _ (by decide) (Or.inl (by simp))
      "index.html",
   by decide⟩

/-! ## Claim C5 — distinctness of destination paths -/

/-- The name the suffixing rule gives the `i`-th occurrence (1-based)
of basename `b`. -/
def specName (b : String) (i : Nat) : String :=
  if i = 1 then b else suffixedName b i

theorem String_append_left_inj (s : String) :
    Function.Injective (fun t => s ++ t) := by
  intro a b h
  have hd := congrArg String.data h
  simp only [String.data_append] at hd
  exact String.ext (List.append_cancel_left hd)

/-- Loop invariant for destination-name distinctness: provided no
basename of the run is itself a suffixed form `b.k` of another basename
of the run, all assigned names are pairwise distinct.  The invariant
tracks that every created job's name is `specName` of its basename at
an index strictly below that basename's current counter, that counters
are always at least 2, and that the names so far are distinct. -/
theorem createJobs_nodup_names (output : String) (disk : List String) (rd : Bool)
    (B : List String)
    (hB : ∀ b1 ∈ B, ∀ b2 ∈ B, ∀ k, 2 ≤ k → b1 ≠ suffixedName b2 k) :
    ∀ (urls : List Url) (s : CreateState) (jobs : List DJob),
      (∀ u ∈ urls, ∀ b, file_name_from_url u = some b → b ∈ B) →
      (∀ x c, lookupCounter s.output_files x = some c → 2 ≤ c) →
      (∀ j ∈ s.jobs, ∃ b i, file_name_from_url j.url = some b ∧ b ∈ B ∧ 1 ≤ i ∧
        j.file_name = specName b i ∧ j.path = output ++ "/" ++ j.file_name ∧
        ∃ c, lookupCounter s.output_files b = some c ∧ i < c) →
      (s.jobs.map (fun j => j.file_name)).Nodup →
      createJobs output disk rd urls s = some jobs →
      (jobs.map (fun j => j.file_name)).Nodup ∧
      (∀ j ∈ jobs, j.path = output ++ "/" ++ j.file_name) := by
  intro urls
  induction urls with
  | nil =>
    intro s jobs _ _ hjobs hnd h
    simp only [createJobs, Option.some.injEq] at h
    subst h
    refine ⟨hnd, ?_⟩
    intro j hj
    obtain ⟨b, i, -, -, -, -, hpath, -⟩ := hjobs j hj
    exact hpath
  | cons v rest ih =>
    intro s jobs hsub hA hjobs hnd h
    by_cases hv : v ∈ s.urls_seen
    · rw [createJobs, if_pos hv] at h
      exact ih s jobs (fun u hu => hsub u (List.mem_cons_of_mem v hu)) hA hjobs hnd h
    · simp only [createJobs, if_neg hv] at h
      split at h
      · cases h
      next b hfnb =>
        have hbB : b ∈ B := hsub v (List.mem_cons_self v rest) b hfnb
        have hsub' : ∀ u ∈ rest, ∀ b, file_name_from_url u = some b → b ∈ B :=
          fun u hu => hsub u (List.mem_cons_of_mem v hu)
        cases hlk : lookupCounter s.output_files b with
        | none =>
          simp only [assignName, hlk] at h
          have hA' : ∀ x c, lookupCounter ((b, 2) :: s.output_files) x = some c →
              2 ≤ c := by
            intro x c hx
            by_cases hxb : x = b
            · subst hxb
              rw [lookupCounter_insert_self] at hx
              injection hx with hx
              omega
            · rw [lookupCounter_insert_other _ _ _ _ hxb] at hx
              exact hA x c hx
          have hold : ∀ j ∈ s.jobs, ∃ b' i',
              file_name_from_url j.url = some b' ∧ b' ∈ B ∧ 1 ≤ i' ∧
              j.file_name = specName b' i' ∧ j.path = output ++ "/" ++ j.file_name ∧
              ∃ c', lookupCounter ((b, 2) :: s.output_files) b' = some c' ∧
                i' < c' := by
            intro j hj
            obtain ⟨b', i', hfn', hb', hi', hname', hpath', c', hlk', hic'⟩ := hjobs j hj
            by_cases hb'b : b' = b
            · subst hb'b
              rw [hlk] at hlk'
              cases hlk'
            · exact ⟨b', i', hfn', hb', hi', hname', hpath', c',
                by rw [lookupCounter_insert_other _ _ _ _ hb'b]; exact hlk', hic'⟩
          have hfresh : ∀ j ∈ s.jobs, j.file_name ≠ b := by
            intro j hj heq
            obtain ⟨b', i', hfn', hb', hi', hname', hpath', c', hlk', hic'⟩ := hjobs j hj
            rw [heq] at hname'
            by_cases hi1 : i' = 1
            · rw [hi1] at hname'
              simp [specName] at hname'
              rw [hname'] at hlk
              rw [hlk] at hlk'
              cases hlk'
            · rw [specName, if_neg hi1] at hname'
              exact hB b hbB b' hb' i' (by omega) hname'
          have hstep : ∀ ul : Bool,
              (∀ j ∈ s.jobs ++ [(⟨s.id, v, b, output ++ "/" ++ b, ul⟩ : DJob)],
                ∃ b' i', file_name_from_url j.url = some b' ∧ b' ∈ B ∧ 1 ≤ i' ∧
                  j.file_name = specName b' i' ∧
                  j.path = output ++ "/" ++ j.file_name ∧
                  ∃ c', lookupCounter ((b, 2) :: s.output_files) b' = some c' ∧
                    i' < c') ∧
              (((s.jobs ++ [(⟨s.id, v, b, output ++ "/" ++ b, ul⟩ : DJob)]).map
                (fun j => j.file_name)).Nodup) := by
            intro ul
            constructor
            · intro j hj
              rcases List.mem_append.1 hj with hj | hj
              · exact hold j hj
              · simp only [List.mem_singleton] at hj
                subst hj
                exact ⟨b, 1, hfnb, hbB, le_refl 1, by simp [specName], rfl,
                  2, lookupCounter_insert_self _ _ _, by omega⟩
            · rw [List.map_append, List.map_singleton, List.nodup_append]
              refine ⟨hnd, List.nodup_singleton b, ?_⟩
              intro a ha hbmem
              simp only [List.mem_singleton] at hbmem
              subst hbmem
              obtain ⟨j, hj, hja⟩ := List.mem_map.1 ha
              exact hfresh j hj hja
          by_cases hdisk : output ++ "/" ++ b ∈ disk
          · rw [if_pos hdisk] at h
            by_cases hrd : rd = true
            · rw [if_pos hrd] at h
              exact ih _ jobs hsub' hA' (hstep true).1 (hstep true).2 h
            · rw [if_neg hrd] at h
              exact ih (CreateState.mk s.id ((b, 2) :: s.output_files)
                (v :: s.urls_seen) s.jobs) jobs hsub' hA' hold hnd h
          · rw [if_neg hdisk] at h
            exact ih _ jobs hsub' hA' (hstep false).1 (hstep false).2 h
        | some c =>
          have hc2 : 2 ≤ c := hA b c hlk
          simp only [assignName, hlk] at h
          have hA' : ∀ x d, lookupCounter (bumpCounter s.output_files b) x = some d →
              2 ≤ d := by
            intro x d hx
            by_cases hxb : x = b
            · subst hxb
              rw [lookupCounter_bump_self _ _ _ hlk] at hx
              injection hx with hx
              omega
            · rw [lookupCounter_bump_other _ _ _ hxb] at hx
              exact hA x d hx
          have hold : ∀ j ∈ s.jobs, ∃ b' i',
              file_name_from_url j.url = some b' ∧ b' ∈ B ∧ 1 ≤ i' ∧
              j.file_name = specName b' i' ∧ j.path = output ++ "/" ++ j.file_name ∧
              ∃ c', lookupCounter (bumpCounter s.output_files b) b' = some c' ∧
                i' < c' := by
            intro j hj
            obtain ⟨b', i', hfn', hb', hi', hname', hpath', c', hlk', hic'⟩ := hjobs j hj
            by_cases hb'b : b' = b
            · subst hb'b
              rw [hlk] at hlk'
              injection hlk' with hlk'
              refine ⟨b', i', hfn', hb', hi', hname', hpath', c + 1,
                lookupCounter_bump_self _ _ _ hlk, by omega⟩
            · exact ⟨b', i', hfn', hb', hi', hname', hpath', c',
                by rw [lookupCounter_bump_other _ _ _ hb'b]; exact hlk', hic'⟩
          have hfresh : ∀ j ∈ s.jobs, j.file_name ≠ suffixedName b c := by
            intro j hj heq
            obtain ⟨b', i', hfn', hb', hi', hname', hpath', c', hlk', hic'⟩ := hjobs j hj
            rw [heq] at hname'
            by_cases hi1 : i' = 1
            · rw [hi1] at hname'
              simp [specName] at hname'
              exact hB b' hb' b hbB c hc2 hname'.symm
            · rw [specName, if_neg hi1] at hname'
              obtain ⟨hbb, hcc⟩ := suffixedName_inj hname'.symm
              subst hbb
              rw [hlk] at hlk'
              injection hlk' with hlk'
              omega
          have hstep : ∀ ul : Bool,
              (∀ j ∈ s.jobs ++ [(⟨s.id, v, suffixedName b c,
                  output ++ "/" ++ suffixedName b c, ul⟩ : DJob)],
                ∃ b' i', file_name_from_url j.url = some b' ∧ b' ∈ B ∧ 1 ≤ i' ∧
                  j.file_name = specName b' i' ∧
                  j.path = output ++ "/" ++ j.file_name ∧
                  ∃ c', lookupCounter (bumpCounter s.output_files b) b' = some c' ∧
                    i' < c') ∧
              (((s.jobs ++ [(⟨s.id, v, suffixedName b c,
                  output ++ "/" ++ suffixedName b c, ul⟩ : DJob)]).map
                (fun j => j.file_name)).Nodup) := by
            intro ul
            constructor
            · intro j hj
              rcases List.mem_append.1 hj with hj | hj
              · exact hold j hj
              · simp only [List.mem_singleton] at hj
                subst hj
                refine ⟨b, c, hfnb, hbB, by omega, ?_, rfl,
                  c + 1, lookupCounter_bump_self _ _ _ hlk, by omega⟩
                rw [specName, if_neg (by omega)]
            · rw [List.map_append, List.map_singleton, List.nodup_append]
              refine ⟨hnd, List.nodup_singleton _, ?_⟩
              intro a ha hbmem
              simp only [List.mem_singleton] at hbmem
              subst hbmem
              obtain ⟨j, hj, hja⟩ := List.mem_map.1 ha
              exact hfresh j hj hja
          by_cases hdisk : output ++ "/" ++ suffixedName b c ∈ disk
          · rw [if_pos hdisk] at h
            by_cases hrd : rd = true
            · rw [if_pos hrd] at h
              exact ih _ jobs hsub' hA' (hstep true).1 (hstep true).2 h
            · rw [if_neg hrd] at h
              exact ih (CreateState.mk s.id (bumpCounter s.output_files b)
                (v :: s.urls_seen) s.jobs) jobs hsub' hA' hold hnd h
          · rw [if_neg hdisk] at h
            exact ih _ jobs hsub' hA' (hstep false).1 (hstep false).2 h

/-- Claim C5, counterexample: the suffixing rule does not guarantee
pairwise-distinct destinations.  With basenames `a`, `a.2`, `a` (from
three distinct URLs), the third URL's suffixed name `a.2` collides with
the second URL's plain name `a.2`: the run creates two jobs with the
same destination file name and path. -/
theorem C5_counterexample :
    (download "o" [] false
        [Url.web "https" "h" ["a"], Url.web "https" "x" ["a.2"],
         Url.web "https" "y" ["a"]]).map
      (fun jobs => jobs.map (fun j => j.file_name)) = some ["a", "a.2", "a.2"] ∧
    ¬ (["a", "a.2", "a.2"] : List String).Nodup := by
  exact ⟨by decide, by decide⟩

/-- Claim C5 (amended): in a single download run in which no derived
basename is itself a suffixed form `b.k` (`k ≥ 2`) of another basename
derived in the run, the suffixing rule gives all created jobs
pairwise-distinct destination file names, hence pairwise-distinct
destination paths.  (When a basename equals `b.k` for another basename
`b` of the run, two jobs can collide.) -/
theorem C5_distinct_destinations (output : String) (disk : List String) (rd : Bool)
    (urls : List Url) (jobs : List DJob)
    (h : download output disk rd urls = some jobs)
    (hfree : ∀ b1 ∈ urls.filterMap file_name_from_url,
      ∀ b2 ∈ urls.filterMap file_name_from_url,
      ∀ k, 2 ≤ k → b1 ≠ suffixedName b2 k) :
    (jobs.map (fun j => j.file_name)).Nodup ∧
    (jobs.map (fun j => j.path)).Nodup := by
  obtain ⟨hnames, hpaths⟩ :=
    createJobs_nodup_names output disk rd (urls.filterMap file_name_from_url) hfree
      urls ⟨0, [], [], []⟩ jobs
      (fun u hu b hb => List.mem_filterMap.2 ⟨u, hu, hb⟩)
      (fun x c hx => by simp [lookupCounter] at hx)
      (by simp)
      (by simp)
      h
  refine ⟨hnames, ?_⟩
  have hre : jobs.map (fun j => j.path) =
      (jobs.map (fun j => j.file_name)).map (fun n => output ++ "/" ++ n) := by
    rw [List.map_map]
    exact List.map_congr_left (fun j hj => hpaths j hj)
  rw [hre]
  refine List.Nodup.map ?_ hnames
  intro a b hab
  exact String_append_left_inj (output ++ "/") hab

/-- Witness for C5: a run with two URLs sharing the basename `a` (and
no suffix-shaped basename) gets the distinct destinations `o/a` and
`o/a.2`. -/
theorem C5_witness :
    (([⟨0, Url.web "https" "h" ["a"], "a", "o/a", false⟩,
       ⟨1, Url.web "https" "x" ["a"], "a.2", "o/a.2", false⟩] : List DJob).map
        (fun j => j.file_name)).Nodup ∧
    (([⟨0, Url.web "https" "h" ["a"], "a", "o/a", false⟩,
       ⟨1, Url.web "https" "x" ["a"], "a.2", "o/a.2", false⟩] : List DJob).map
        (fun j => j.path)).Nodup := by
  refine C5_distinct_destinations "o" [] false
    [Url.web "https" "h" ["a"], Url.web "https" "x" ["a"]] _ (by decide) ?_
  have hbases : ([Url.web "https" "h" ["a"],
      Url.web "https" "x" ["a"]].filterMap file_name_from_url) = ["a", "a"] := by
    decide
  rw [hbases]
  intro b1 hb1 b2 hb2 k hk
  have hb1' : b1 = "a" := by
    simpa using hb1
  have hb2' : b2 = "a" := by
    simpa using hb2
  subst hb1'
  subst hb2'
  exact base_ne_suffixedName "a" k

/-- Witness for C3: a download run over a list with a duplicated URL
creates jobs with pairwise-distinct URLs. -/
theorem C3_witness :
    ((([⟨0, Url.web "https" "h.test" ["x"], "x", "out/x", false⟩] : List DJob)).map
      (fun j => j.url)).Nodup :=
  C3_dedup_before_jobs.1 "out" [] false
    [Url.web "https" "h.test" ["x"], Url.web "https" "h.test" ["x"]]
    [⟨0, Url.web "https" "h.test" ["x"], "x", "out/x", false⟩] (by decide)
